import Mathlib

/-!
Verification of the ticker-conversion core of `bot.py`: the normalizer,
the symbol resolver with its TTL cache, the price fetcher with its TTL
cache, the fiat/crypto formatter, and the conversion engine.

Modelling conventions:
* Python floats are modelled as rationals (`ℚ`); Python string formatting
  with `:.nf` is modelled by round-half-even to `n` decimal places.
* Network calls are modelled by passing the outcome of the call as an
  explicit `Except Unit _` parameter; an `Except.error ()` models a
  transport failure or a non-200 HTTP status raised by `fetch_json`.
* The module-level `TTLCache` objects are modelled as explicit association
  lists carrying an expiry instant per entry, threaded through the
  functions; capacity-based eviction (maxsize 5000) is not modelled since
  no property here depends on it.
* Each cache-using operation also reports a `remote` flag recording
  whether the remote call was performed, so that "no network call" claims
  are directly observable.
-/

/-- Python `sorted` on a list, modelled as a stable insertion sort with a
boolean `le`.  (The code sorts strings and match candidates.) -/
def insertSorted (le : α → α → Bool) (a : α) : List α → List α
  | [] => [a]
  | b :: l => if le a b then a :: b :: l else b :: insertSorted le a l

/-- Stable sort driver: sort the tail, then insert the head. -/
def pySorted (le : α → α → Bool) : List α → List α
  | [] => []
  | a :: l => insertSorted le a (pySorted le l)

/-- Computable lexicographic `≤` on character lists. -/
def listLE : List Char → List Char → Bool
  | [], _ => true
  | _ :: _, [] => false
  | a :: as, b :: bs => if a < b then true else if b < a then false else listLE as bs

/-- Boolean `≤` on strings (Python compares strings lexicographically by
code point; Lean's `String` order is the same lexicographic order). -/
def strLE (a b : String) : Bool := listLE a.data b.data

/-- `nrm` keeps exactly the lowercase ASCII letters and digits. -/
def isLowerAlnum (c : Char) : Bool :=
  (decide (Char.ofNat 97 ≤ c) && decide (c ≤ Char.ofNat 122)) ||
  (decide (Char.ofNat 48 ≤ c) && decide (c ≤ Char.ofNat 57))

/-- `nrm(s)`: lowercase, then strip every character outside `[a-z0-9]`
(`re.sub(r"[^a-z0-9]", "", s.lower())`), working characterwise. -/
def nrm (s : String) : String := String.mk ((s.data.map Char.toLower).filter isLowerAlnum)

/-- `COMMON_IDS`: the static shortcut table from ticker to canonical id. -/
def COMMON_IDS : List (String × String) :=
  [(("btc"), ("bitcoin")), (("xbt"), ("bitcoin")), (("eth"), ("ethereum")),
   (("sol"), ("solana")), (("ada"), ("cardano")), (("xrp"), ("ripple")),
   (("doge"), ("dogecoin")), (("dot"), ("polkadot")), (("matic"), ("matic-network")),
   (("avax"), ("avalanche-2")), (("ltc"), ("litecoin")), (("bch"), ("bitcoin-cash")),
   (("atom"), ("cosmos")), (("link"), ("chainlink")), (("uni"), ("uniswap")),
   (("arb"), ("arbitrum")), (("op"), ("optimism")), (("ton"), ("the-open-network")),
   (("xlm"), ("stellar")), (("etc"), ("ethereum-classic")), (("near"), ("near")),
   (("apt"), ("aptos")), (("ftm"), ("fantom")), (("fil"), ("filecoin")),
   (("hnt"), ("helium"))]

/-- Dictionary lookup in `COMMON_IDS`. -/
def lookupCommon (k : String) : Option String :=
  (COMMON_IDS.find? (fun p => p.1 == k)).map (fun p => p.2)

/-- `FIAT_WHITELIST`: the fixed set of recognized fiat currency codes. -/
def FIAT_WHITELIST : List String :=
  [("usd"), ("eur"), ("gbp"), ("jpy"), ("cny"), ("aud"), ("cad"), ("chf"),
   ("inr"), ("brl"), ("mxn"), ("sek"), ("nok"), ("dkk"), ("pln"), ("zar"),
   ("hkd"), ("sgd"), ("thb"), ("twd"), ("idr"), ("php"), ("try"), ("ils"),
   ("nzd"), ("rub"), ("aed"), ("sar"), ("ngn"), ("ars"), ("clp"), ("czk"),
   ("ron")]

/-- One record of the remote `/coins/list` response. -/
structure Coin where
  id : String
  symbol : String
  name : String
deriving DecidableEq, Repr

/-- The Python sort key `(len(c.get("name","")), c.get("id",""))`, as a
boolean lexicographic `≤` on coins. -/
def coinLE (a b : Coin) : Bool :=
  decide (a.name.length < b.name.length) ||
  (decide (a.name.length = b.name.length) && strLE a.id b.id)

/-- Candidate filtering of `symbol_to_id` (bot.py lines 58-60): records
whose normalized symbol equals the key; if none, records whose normalized
name equals the key. -/
def matchCandidates (coins : List Coin) (key : String) : List Coin :=
  let ms := coins.filter (fun c => nrm c.symbol == key)
  if ms.isEmpty then coins.filter (fun c => nrm c.name == key) else ms

/-- Remote-lookup candidate selection (bot.py lines 58-64): filter, sort by
`(len(name), id)`, take the first id; `none` when nothing matches. -/
def chooseMatch (coins : List Coin) (key : String) : Option String :=
  match pySorted coinLE (matchCandidates coins key) with
  | [] => none
  | c :: _ => some c.id

/-- The symbol cache: normalized key to cached result (the cached result
may itself be `none`, Python caches `None` for "no match") plus the expiry
instant of the entry. -/
abbrev SymCache := List (String × Option String × Nat)

/-- TTL-cache read: the entry is visible only before its expiry instant. -/
def cacheGet (c : SymCache) (now : Nat) (k : String) : Option (Option String) :=
  match c.find? (fun e => e.1 == k) with
  | some e => if now < e.2.2 then some e.2.1 else none
  | none => none

/-- TTL-cache write: replaces any previous entry for the key. -/
def cachePut (c : SymCache) (k : String) (v : Option String) (exp : Nat) : SymCache :=
  (k, v, exp) :: c.filter (fun e => e.1 != k)

/-- `ttl=60 * 60 * 12` of `symbol_cache`. -/
def SYMBOL_TTL : Nat := 60 * 60 * 12

deriving instance DecidableEq for Except

/-- Outcome of `symbol_to_id`: the returned value (or the propagated fetch
error), the symbol cache afterwards, and whether the remote list fetch was
performed. -/
structure ResolveOut where
  result : Except Unit (Option String)
  cache : SymCache
  remote : Bool
deriving DecidableEq

/-- `symbol_to_id` (bot.py lines 48-66).  `fetchCoins` is the outcome the
remote `/coins/list` call would have; it is consulted only when the
function actually reaches the network step. -/
def symbol_to_id (fetchCoins : Except Unit (List Coin)) (now : Nat)
    (cache : SymCache) (symbol : String) : ResolveOut :=
  let key := nrm symbol
  if key = ("") then ⟨Except.ok none, cache, false⟩
  else
    match lookupCommon key with
    | some cid => ⟨Except.ok (some cid), cache, false⟩
    | none =>
      match cacheGet cache now key with
      | some v => ⟨Except.ok v, cache, false⟩
      | none =>
        match fetchCoins with
        | Except.error e => ⟨Except.error e, cache, true⟩
        | Except.ok coins =>
          let chosen := chooseMatch coins key
          ⟨Except.ok chosen, cachePut cache key chosen (now + SYMBOL_TTL), true⟩

/-- The decoded `/simple/price` response: asset id to (currency to price).
A missing id or currency models an incomplete response. -/
abbrev PriceData := List (String × List (String × ℚ))

/-- The price cache: composite string key to cached response plus expiry. -/
abbrev PriceCache := List (String × PriceData × Nat)

/-- TTL-cache read for the price cache. -/
def priceCacheGet (c : PriceCache) (now : Nat) (k : String) : Option PriceData :=
  match c.find? (fun e => e.1 == k) with
  | some e => if now < e.2.2 then some e.2.1 else none
  | none => none

/-- `ttl=60` of `price_cache`. -/
def PRICE_TTL : Nat := 60

/-- The composite cache key of `get_prices` (bot.py line 69):
`f"{','.join(sorted(ids))}|{','.join(sorted(vs))}"`. -/
def price_cache_key (ids vs : List String) : String :=
  String.intercalate (",") (pySorted strLE ids) ++ ("|") ++
    String.intercalate (",") (pySorted strLE vs)

instance : DecidableEq (String × PriceData × Nat) := instDecidableEqProd

/-- Outcome of `get_prices`: returned data (or propagated fetch error),
the price cache afterwards, and whether the remote fetch was performed. -/
structure PricesOut where
  result : Except Unit PriceData
  cache : PriceCache
  remote : Bool
deriving DecidableEq

/-- `get_prices` (bot.py lines 68-78).  `fetch` is the outcome the remote
`/simple/price` call would have; it is consulted only on a cache miss. -/
def get_prices (fetch : Except Unit PriceData) (now : Nat)
    (cache : PriceCache) (ids vs : List String) : PricesOut :=
  let ck := price_cache_key ids vs
  match priceCacheGet cache now ck with
  | some d => ⟨Except.ok d, cache, false⟩
  | none =>
    match fetch with
    | Except.error e => ⟨Except.error e, cache, true⟩
    | Except.ok d => ⟨Except.ok d, (ck, d, now + PRICE_TTL) :: cache.filter (fun e => e.1 != ck), true⟩

/-- `prices.get(id, {}).get(cur)`. -/
def priceLookup (d : PriceData) (id cur : String) : Option ℚ :=
  match d.find? (fun p => p.1 == id) with
  | none => none
  | some p => (p.2.find? (fun q => q.1 == cur)).map (fun q => q.2)

/-- Decimal digit to its character. -/
def digitChar : Nat → Char
  | 0 => '0' | 1 => '1' | 2 => '2' | 3 => '3' | 4 => '4'
  | 5 => '5' | 6 => '6' | 7 => '7' | 8 => '8' | _ => '9'

/-- Digits of a natural number, most significant first, via explicit fuel
so that the definition is structural (and kernel-evaluable). -/
def natDigitsCore : Nat → Nat → List Char → List Char
  | 0, _, acc => acc
  | fuel + 1, n, acc =>
    if n < 10 then digitChar n :: acc
    else natDigitsCore fuel (n / 10) (digitChar (n % 10) :: acc)

/-- Decimal digits of `n`, most significant first (`0` renders as "0"). -/
def natDigits (n : Nat) : List Char := natDigitsCore (n + 1) n []

/-- Exactly `n` decimal digits of the fractional part `fp < 10^n`, most
significant first, zero-padded on the left. -/
def fracDigitsList : Nat → Nat → List Char
  | 0, _ => []
  | k + 1, fp => fracDigitsList k (fp / 10) ++ [digitChar (fp % 10)]

/-- Thousands grouping on a reversed digit list: a comma after every three
characters taken from the right (none after the final group). -/
def group3 : List Char → List Char
  | a :: b :: c :: rest =>
    if rest.isEmpty then [a, b, c] else a :: b :: c :: ',' :: group3 rest
  | l => l

/-- The `,` option of Python format strings: group the integer-part digits
in threes from the right. -/
def groupDigits (l : List Char) : List Char := (group3 l.reverse).reverse

/-- Round-half-even to an integer: the rounding used by Python `format` on
its fixed-point presentation types. -/
def roundHalfEven (q : ℚ) : ℤ :=
  let f := ⌊q⌋
  let r := q - (f : ℚ)
  if r < 1/2 then f
  else if 1/2 < r then f + 1
  else if f % 2 = 0 then f else f + 1

/-- Renders the scaled magnitude `s` (the value times `10^n`, already
rounded to an integer) with `n` decimals and optional grouping. -/
def renderFixed (grouped : Bool) (n : Nat) (s : Nat) : String :=
  let ip := s / 10 ^ n
  let fp := s % 10 ^ n
  let ipChars := if grouped then groupDigits (natDigits ip) else natDigits ip
  String.mk (ipChars ++ '.' :: fracDigitsList n fp)

/-- Python `f"{x:,.nf}"` / `f"{x:.nf}"`: fixed-point with `n` decimals,
round-half-even, optional thousands grouping of the integer part. -/
def fmtFixed (grouped : Bool) (n : Nat) (x : ℚ) : String :=
  let body := renderFixed grouped n (roundHalfEven (|x| * (10 : ℚ) ^ n)).toNat
  if x < 0 then ("-") ++ body else body

/-- Python `s.rstrip(c)` for a single strip character. -/
def rstripChar (c : Char) (s : String) : String :=
  String.mk ((s.data.reverse.dropWhile (fun a => a == c)).reverse)

/-- `.rstrip("0").rstrip(".")` applied to the crypto renderings. -/
def stripTrailing (s : String) : String := rstripChar '.' (rstripChar '0' s)

/-- `fmt` (bot.py lines 80-88): fiat quotes get 2/4/8 fixed decimals by
magnitude; other quotes get 6 or 10 decimals with trailing zeros and a
trailing decimal point stripped. -/
def fmt (x : ℚ) (quote : String) : String :=
  let q := nrm quote
  if FIAT_WHITELIST.contains q then
    if 1 ≤ x then fmtFixed true 2 x
    else if 1/100 ≤ x then fmtFixed true 4 x
    else fmtFixed false 8 x
  else
    if 1 ≤ x then stripTrailing (fmtFixed false 6 x)
    else stripTrailing (fmtFixed false 10 x)

/-- Python truthiness of an optional price: `not p` holds for a missing
price and for a price equal to `0.0`. -/
def pyFalsy (p : Option ℚ) : Bool :=
  match p with
  | none => true
  | some q => q == 0

/-- Python truthiness of an optional id string: `not s` holds for `None`
and for the empty string. -/
def pyStrFalsy (s : Option String) : Bool :=
  match s with
  | none => true
  | some s => s == ("")

/-- The user-visible outcome of one conversion request. -/
inductive Reply where
  | unknownBase : Reply
  | unknownQuote : Reply
  | priceUnavailable : Reply
  | success (total rate : ℚ) : Reply
deriving DecidableEq

/-- Fiat branch price step (bot.py lines 110-115): a missing price is
`PriceUnavailable`; any present price (zero included) converts with
`total = amt * p` and unit rate `p`. -/
def fiat_result (amt : ℚ) (p : Option ℚ) : Reply :=
  match p with
  | none => Reply.priceUnavailable
  | some p => Reply.success (amt * p) p

/-- Cross-asset branch price step (bot.py lines 123-133): the guard
`not p_base or not p_quote or p_quote == 0` rejects missing and zero
prices; otherwise `rate = p_base / p_quote`, `total = amt * rate`. -/
def cross_result (amt : ℚ) (p_base p_quote : Option ℚ) : Reply :=
  if pyFalsy p_base || pyFalsy p_quote || p_quote == some 0 then
    Reply.priceUnavailable
  else
    let rate := p_base.getD 0 / p_quote.getD 0
    Reply.success (amt * rate) rate

/-- Both module-level caches. -/
structure BotState where
  symCache : SymCache
  priceCache : PriceCache
deriving DecidableEq

/-- The conversion engine of `handle_message` (bot.py lines 96-134), after
the trigger pattern has produced the `(amt, base, quote)` triple.
`coinsFetch` and `priceFetch` are the outcomes the two remote endpoints
would provide; an uncaught `Except.error` models the aiohttp exception
propagating out of the handler. -/
def handle_message (coinsFetch : Except Unit (List Coin))
    (priceFetch : List String → List String → Except Unit PriceData)
    (now : Nat) (st : BotState) (amt : ℚ) (baseRaw quoteRaw : String) :
    Except Unit Reply × BotState :=
  let base := nrm baseRaw
  let quote := nrm quoteRaw
  let quote_is_fiat := FIAT_WHITELIST.contains quote
  let r1 := symbol_to_id coinsFetch now st.symCache base
  match r1.result with
  | Except.error e => (Except.error e, ⟨r1.cache, st.priceCache⟩)
  | Except.ok bid? =>
    if pyStrFalsy bid? then (Except.ok Reply.unknownBase, ⟨r1.cache, st.priceCache⟩)
    else
      let bid := bid?.getD ("")
      if quote_is_fiat then
        let r2 := get_prices (priceFetch [bid] [quote]) now st.priceCache [bid] [quote]
        match r2.result with
        | Except.error e => (Except.error e, ⟨r1.cache, r2.cache⟩)
        | Except.ok prices =>
          (Except.ok (fiat_result amt (priceLookup prices bid quote)), ⟨r1.cache, r2.cache⟩)
      else
        let rq := symbol_to_id coinsFetch now r1.cache quote
        match rq.result with
        | Except.error e => (Except.error e, ⟨rq.cache, st.priceCache⟩)
        | Except.ok qid? =>
          if pyStrFalsy qid? then (Except.ok Reply.unknownQuote, ⟨rq.cache, st.priceCache⟩)
          else
            let qid := qid?.getD ("")
            let r2 := get_prices (priceFetch [bid, qid] [("usd")]) now st.priceCache [bid, qid] [("usd")]
            match r2.result with
            | Except.error e => (Except.error e, ⟨rq.cache, r2.cache⟩)
            | Except.ok prices =>
              (Except.ok (cross_result amt (priceLookup prices bid ("usd")) (priceLookup prices qid ("usd"))),
               ⟨rq.cache, r2.cache⟩)

/-- Inserting permutes: `insertSorted le a l` is `a :: l` up to order. -/
theorem insertSorted_perm (le : α → α → Bool) (a : α) (l : List α) :
    (insertSorted le a l).Perm (a :: l) := by
  induction l with
  | nil => exact List.Perm.refl _
  | cons b t ih =>
    simp only [insertSorted]
    by_cases h : le a b = true
    · rw [if_pos h]
    · rw [if_neg h]
      exact ((ih.cons b).trans (List.Perm.swap a b t))

/-- Sorting permutes: `pySorted le l` is `l` up to order. -/
theorem pySorted_perm (le : α → α → Bool) (l : List α) :
    (pySorted le l).Perm l := by
  induction l with
  | nil => exact List.Perm.refl _
  | cons a t ih =>
    exact (insertSorted_perm le a (pySorted le t)).trans (ih.cons a)

/-- Inserting into a `le`-sorted list keeps it sorted, for a total
transitive `le`. -/
theorem insertSorted_pairwise (le : α → α → Bool)
    (htrans : ∀ x y z, le x y = true → le y z = true → le x z = true)
    (htot : ∀ x y, le x y = false → le y x = true)
    (a : α) (l : List α) (h : l.Pairwise (fun x y => le x y = true)) :
    (insertSorted le a l).Pairwise (fun x y => le x y = true) := by
  induction l with
  | nil => simp [insertSorted]
  | cons b t ih =>
    rcases List.pairwise_cons.mp h with ⟨hb, ht⟩
    simp only [insertSorted]
    by_cases hab : le a b = true
    · rw [if_pos hab]
      refine List.pairwise_cons.mpr ⟨?_, h⟩
      intro y hy
      rcases List.mem_cons.mp hy with rfl | hyt
      · exact hab
      · exact htrans a b y hab (hb y hyt)
    · rw [if_neg hab]
      refine List.pairwise_cons.mpr ⟨?_, ih ht⟩
      intro y hy
      have hmem : y ∈ a :: t := (insertSorted_perm le a t).mem_iff.mp hy
      rcases List.mem_cons.mp hmem with hya | hyt
      · rw [hya]
        exact htot a b (Bool.eq_false_iff.mpr hab)
      · exact hb y hyt

/-- `pySorted` produces a `le`-sorted list, for a total transitive `le`. -/
theorem pySorted_pairwise (le : α → α → Bool)
    (htrans : ∀ x y z, le x y = true → le y z = true → le x z = true)
    (htot : ∀ x y, le x y = false → le y x = true)
    (l : List α) : (pySorted le l).Pairwise (fun x y => le x y = true) := by
  induction l with
  | nil => simp [pySorted]
  | cons a t ih => exact insertSorted_pairwise le htrans htot a (pySorted le t) ih

/-- The head of the sorted list is a `le`-least element of the input. -/
theorem pySorted_head_least (le : α → α → Bool)
    (htrans : ∀ x y z, le x y = true → le y z = true → le x z = true)
    (htot : ∀ x y, le x y = false → le y x = true)
    (l : List α) (c : α) (rest : List α) (h : pySorted le l = c :: rest) :
    c ∈ l ∧ ∀ d ∈ l, le c d = true := by
  have hperm := pySorted_perm le l
  rw [h] at hperm
  constructor
  · exact hperm.mem_iff.mp (List.mem_cons_self c rest)
  · intro d hd
    have hd2 : d ∈ c :: rest := hperm.mem_iff.mpr hd
    rcases List.mem_cons.mp hd2 with rfl | hdr
    · by_cases hcc : le d d = true
      · exact hcc
      · exact htot d d (Bool.eq_false_iff.mpr hcc)
    · have hp := pySorted_pairwise le htrans htot l
      rw [h] at hp
      exact (List.pairwise_cons.mp hp).1 d hdr

/-- `listLE x y` holds exactly when `y` is not lexicographically below
`x`, i.e. it computes the (total) lexicographic `≤`. -/
theorem listLE_iff_not_lt (x y : List Char) : listLE x y = true ↔ ¬ List.lt y x := by
  induction x generalizing y with
  | nil =>
    cases y with
    | nil =>
      refine ⟨fun _ h => ?_, fun _ => rfl⟩
      cases h
    | cons b bs =>
      refine ⟨fun _ h => ?_, fun _ => rfl⟩
      cases h
  | cons a as ih =>
    cases y with
    | nil =>
      simp only [listLE]
      constructor
      · intro h
        exact Bool.noConfusion h
      · intro h
        exact absurd (List.lt.nil a as) h
    | cons b bs =>
      simp only [listLE]
      by_cases hab : a < b
      · rw [if_pos hab]
        constructor
        · intro _ h
          cases h with
          | head _ _ hba => exact absurd hab (asymm hba)
          | tail h1 h2 _ => exact h2 hab
        · intro _
          rfl
      · rw [if_neg hab]
        by_cases hba : b < a
        · rw [if_pos hba]
          constructor
          · intro h
            exact Bool.noConfusion h
          · intro h
            exact absurd (List.lt.head bs as hba) h
        · rw [if_neg hba]
          rw [ih bs]
          constructor
          · intro h hlt
            cases hlt with
            | head _ _ hba2 => exact hba hba2
            | tail _ _ htail => exact h htail
          · intro h htail
            exact h (List.lt.tail hba hab htail)

/-- `strLE` agrees with the order on `String`. -/
theorem strLE_iff_le (a b : String) : strLE a b = true ↔ a ≤ b := by
  rw [strLE, listLE_iff_not_lt]
  have hlt : b < a ↔ List.lt b.data a.data := by
    rw [String.lt_iff_toList_lt]
    exact (List.lt_iff_lex_lt b.data a.data).symm
  rw [← hlt]
  exact not_lt

/-- `strLE` is transitive. -/
theorem strLE_trans : ∀ x y z : String, strLE x y = true → strLE y z = true → strLE x z = true := by
  intro x y z hxy hyz
  rw [strLE_iff_le] at hxy hyz ⊢
  exact le_trans hxy hyz

/-- `strLE` is total. -/
theorem strLE_total : ∀ x y : String, strLE x y = false → strLE y x = true := by
  intro x y h
  rw [strLE_iff_le]
  have hxy : ¬ x ≤ y := by
    intro hle
    rw [← strLE_iff_le] at hle
    rw [h] at hle
    exact Bool.noConfusion hle
  exact le_of_not_le hxy

/-- Sorting strings is invariant under permutation of the input: two
inputs equal up to order sort to the same list. -/
theorem pySorted_strings_perm_inv (l1 l2 : List String) (h : l1.Perm l2) :
    pySorted strLE l1 = pySorted strLE l2 := by
  haveI hanti : IsAntisymm String (fun a b => strLE a b = true) := by
    constructor
    intro a b hab hba
    rw [strLE_iff_le] at hab hba
    exact le_antisymm hab hba
  exact @List.eq_of_perm_of_sorted String (fun a b => strLE a b = true) hanti _ _
    ((pySorted_perm strLE l1).trans (h.trans (pySorted_perm strLE l2).symm))
    (pySorted_pairwise strLE strLE_trans strLE_total l1)
    (pySorted_pairwise strLE strLE_trans strLE_total l2)

/-- The coin ranking `coinLE` is transitive. -/
theorem coinLE_trans : ∀ x y z : Coin, coinLE x y = true → coinLE y z = true → coinLE x z = true := by
  intro x y z hxy hyz
  simp only [coinLE, Bool.or_eq_true, Bool.and_eq_true, decide_eq_true_eq, strLE_iff_le] at hxy hyz ⊢
  rcases hxy with h1 | ⟨h1, h2⟩ <;> rcases hyz with h3 | ⟨h3, h4⟩
  · exact Or.inl (lt_trans h1 h3)
  · exact Or.inl (h3 ▸ h1)
  · exact Or.inl (h1 ▸ h3)
  · exact Or.inr ⟨h1.trans h3, le_trans h2 h4⟩

/-- The coin ranking `coinLE` is total. -/
theorem coinLE_total : ∀ x y : Coin, coinLE x y = false → coinLE y x = true := by
  intro x y h
  simp only [coinLE, Bool.or_eq_false_iff, Bool.and_eq_false_iff, decide_eq_false_iff_not] at h
  simp only [coinLE, Bool.or_eq_true, Bool.and_eq_true, decide_eq_true_eq, strLE_iff_le]
  rcases h with ⟨h1, h2⟩
  rcases Nat.lt_trichotomy x.name.length y.name.length with hlt | heq | hgt
  · exact absurd hlt h1
  · rcases h2 with h2 | h2
    · exact absurd heq h2
    · refine Or.inr ⟨heq.symm, ?_⟩
      have hx : ¬ x.id ≤ y.id := by
        intro hle
        rw [← strLE_iff_le] at hle
        rw [h2] at hle
        exact Bool.noConfusion hle
      exact le_of_not_le hx
  · exact Or.inl hgt

/-- Reading back a just-written symbol-cache entry before its expiry. -/
theorem cacheGet_cachePut (c : SymCache) (k : String) (v : Option String)
    (exp now2 : Nat) (h : now2 < exp) :
    cacheGet (cachePut c k v exp) now2 k = some v := by
  simp only [cacheGet, cachePut]
  rw [List.find?_cons_of_pos]
  · simp [h]
  · simp

/-- Reading back a just-written price-cache entry before its expiry. -/
theorem priceCacheGet_put (c : PriceCache) (k : String) (d : PriceData)
    (exp now2 : Nat) (h : now2 < exp) :
    priceCacheGet ((k, d, exp) :: c.filter (fun e => e.1 != k)) now2 k = some d := by
  simp only [priceCacheGet]
  rw [List.find?_cons_of_pos]
  · simp [h]
  · simp

/-- C5: a ticker whose normalized key is in the shortcut table resolves to
the table's id with no remote call and no cache read or write, whatever
the cache contains and whatever the remote source would answer. -/
theorem C5_shortcut_resolution (fetchCoins : Except Unit (List Coin)) (now : Nat)
    (cache : SymCache) (symbol : String) (cid : String)
    (h : lookupCommon (nrm symbol) = some cid) :
    symbol_to_id fetchCoins now cache symbol = ⟨Except.ok (some cid), cache, false⟩ := by
  by_cases hk : nrm symbol = ("")
  · exfalso
    rw [hk] at h
    have hnone : lookupCommon ("") = none := by rfl
    rw [hnone] at h
    exact Option.noConfusion h
  · simp only [symbol_to_id]
    rw [if_neg hk, h]

/-- C5 witness: "btc" resolves to "bitcoin" even with an unreachable
remote source and a poisoned, unread cache entry. -/
theorem C5_witness :
    lookupCommon (nrm ("btc")) = some ("bitcoin") ∧
    symbol_to_id (Except.error ()) 5 [(("btc"), some ("wrong"), 99)] ("btc") =
      ⟨Except.ok (some ("bitcoin")), [(("btc"), some ("wrong"), 99)], false⟩ :=
  ⟨by decide,
   C5_shortcut_resolution (Except.error ()) 5 [(("btc"), some ("wrong"), 99)] ("btc") ("bitcoin") (by decide)⟩

/-- C4: when the remote call is actually performed and fails, both
`symbol_to_id` and `get_prices` propagate the error and leave their cache
exactly as it was (no entry is written on failure). -/
theorem C4_atomic_on_remote_failure :
    (∀ (now : Nat) (cache : SymCache) (symbol : String),
      (symbol_to_id (Except.error ()) now cache symbol).remote = true →
        (symbol_to_id (Except.error ()) now cache symbol).result = Except.error () ∧
        (symbol_to_id (Except.error ()) now cache symbol).cache = cache) ∧
    (∀ (now : Nat) (cache : PriceCache) (ids vs : List String),
      (get_prices (Except.error ()) now cache ids vs).remote = true →
        (get_prices (Except.error ()) now cache ids vs).result = Except.error () ∧
        (get_prices (Except.error ()) now cache ids vs).cache = cache) := by
  constructor
  · intro now cache symbol
    simp only [symbol_to_id]
    split
    · intro h
      exact absurd h (by simp)
    · split
      · intro h
        exact absurd h (by simp)
      · split
        · intro h
          exact absurd h (by simp)
        · intro _
          exact ⟨rfl, rfl⟩
  · intro now cache ids vs
    simp only [get_prices]
    split
    · intro h
      exact absurd h (by simp)
    · intro _
      exact ⟨rfl, rfl⟩

/-- C4 witness: an uncached, non-shortcut key with a failing remote list
fetch reaches the network, errors out, and writes nothing. -/
theorem C4_witness :
    (symbol_to_id (Except.error ()) 0 [] ("zzz")).remote = true ∧
    (symbol_to_id (Except.error ()) 0 [] ("zzz")).result = Except.error () ∧
    (symbol_to_id (Except.error ()) 0 [] ("zzz")).cache = [] :=
  ⟨by decide,
   (C4_atomic_on_remote_failure.1 0 [] ("zzz") (by decide)).1,
   (C4_atomic_on_remote_failure.1 0 [] ("zzz") (by decide)).2⟩

/-- C7: after a first resolution of an uncached, non-shortcut ticker with
a successful remote fetch, a second resolution of the same ticker at any
instant still inside the 12-hour TTL returns the very same stored value,
leaves the cache untouched, and performs no remote call (whatever the
remote source would answer the second time). -/
theorem C7_cache_coherence (coins : List Coin) (fetch2 : Except Unit (List Coin))
    (now now2 : Nat) (cache : SymCache) (symbol : String)
    (hkey : nrm symbol ≠ (""))
    (hcommon : lookupCommon (nrm symbol) = none)
    (hmiss : cacheGet cache now (nrm symbol) = none)
    (httl : now2 < now + SYMBOL_TTL) :
    symbol_to_id fetch2 now2 (symbol_to_id (Except.ok coins) now cache symbol).cache symbol =
      ⟨(symbol_to_id (Except.ok coins) now cache symbol).result,
       (symbol_to_id (Except.ok coins) now cache symbol).cache, false⟩ := by
  have h1 : symbol_to_id (Except.ok coins) now cache symbol =
      ⟨Except.ok (chooseMatch coins (nrm symbol)),
       cachePut cache (nrm symbol) (chooseMatch coins (nrm symbol)) (now + SYMBOL_TTL), true⟩ := by
    simp only [symbol_to_id]
    rw [if_neg hkey, hcommon, hmiss]
  rw [h1]
  simp only [symbol_to_id]
  rw [if_neg hkey, hcommon,
    cacheGet_cachePut cache (nrm symbol) (chooseMatch coins (nrm symbol)) (now + SYMBOL_TTL) now2 httl]

/-- C7 witness: "zzz" is resolved remotely once at time 0, then again at
time 100 (well inside the TTL) with the remote source down: the second
call returns the same id from the cache with no remote call. -/
theorem C7_witness :
    nrm ("zzz") ≠ ("") ∧ cacheGet [] 0 (nrm ("zzz")) = none ∧
    symbol_to_id (Except.error ()) 100
        (symbol_to_id (Except.ok [⟨("zzzcoin"), ("zzz"), ("Zzz")⟩]) 0 [] ("zzz")).cache ("zzz") =
      ⟨(symbol_to_id (Except.ok [⟨("zzzcoin"), ("zzz"), ("Zzz")⟩]) 0 [] ("zzz")).result,
       (symbol_to_id (Except.ok [⟨("zzzcoin"), ("zzz"), ("Zzz")⟩]) 0 [] ("zzz")).cache, false⟩ :=
  ⟨by decide, by decide,
   C7_cache_coherence [⟨("zzzcoin"), ("zzz"), ("Zzz")⟩] (Except.error ()) 0 100 [] ("zzz")
     (by decide) (by decide) (by decide) (by decide)⟩

/-- C3 counterexample: the two id lists are equal as sets (they differ
only by duplication), yet the cache keys differ, because the code joins
`sorted(ids)` without de-duplicating. -/
theorem C3_counterexample :
    [("bitcoin"), ("bitcoin")].toFinset = [("bitcoin")].toFinset ∧
    price_cache_key [("bitcoin"), ("bitcoin")] [("usd")] ≠
      price_cache_key [("bitcoin")] [("usd")] := by
  constructor
  · rfl
  · decide

/-- C3 (amended): the cache key is the sorted (but not de-duplicated) join
of the ids and of the quotes, so calls whose ids and quotes agree as
multisets (i.e. differ only in ordering) share the key; and a permuted
repeat of a fetched request inside the 60-second TTL is served from the
cache entry of the first request, without a remote call. -/
theorem C3_sorted_key_sharing :
    (∀ ids1 ids2 vs1 vs2 : List String, ids1.Perm ids2 → vs1.Perm vs2 →
      price_cache_key ids1 vs1 = price_cache_key ids2 vs2) ∧
    (∀ (d : PriceData) (fetch2 : Except Unit PriceData) (now now2 : Nat)
        (cache : PriceCache) (ids1 vs1 ids2 vs2 : List String),
      ids1.Perm ids2 → vs1.Perm vs2 →
      priceCacheGet cache now (price_cache_key ids1 vs1) = none →
      now2 < now + PRICE_TTL →
      get_prices fetch2 now2 (get_prices (Except.ok d) now cache ids1 vs1).cache ids2 vs2 =
        ⟨Except.ok d, (get_prices (Except.ok d) now cache ids1 vs1).cache, false⟩) := by
  have hkey : ∀ ids1 ids2 vs1 vs2 : List String, ids1.Perm ids2 → vs1.Perm vs2 →
      price_cache_key ids1 vs1 = price_cache_key ids2 vs2 := by
    intro ids1 ids2 vs1 vs2 hi hv
    unfold price_cache_key
    rw [pySorted_strings_perm_inv ids1 ids2 hi, pySorted_strings_perm_inv vs1 vs2 hv]
  refine ⟨hkey, ?_⟩
  intro d fetch2 now now2 cache ids1 vs1 ids2 vs2 hi hv hmiss httl
  have h1 : get_prices (Except.ok d) now cache ids1 vs1 =
      ⟨Except.ok d, (price_cache_key ids1 vs1, d, now + PRICE_TTL) ::
        cache.filter (fun e => e.1 != price_cache_key ids1 vs1), true⟩ := by
    simp only [get_prices]
    rw [hmiss]
  rw [h1]
  simp only [get_prices]
  rw [← hkey ids1 ids2 vs1 vs2 hi hv,
    priceCacheGet_put cache (price_cache_key ids1 vs1) d (now + PRICE_TTL) now2 httl]

/-- C3 witness: a permuted repeat of the `(ethereum, solana) × usd` fetch
30 seconds later is served from the first call's cache entry even though
the remote endpoint is down. -/
theorem C3_witness :
    priceCacheGet [] 0 (price_cache_key [("solana"), ("ethereum")] [("usd")]) = none ∧
    get_prices (Except.error ()) 30
        (get_prices (Except.ok [(("ethereum"), [(("usd"), 3000)])]) 0 []
          [("solana"), ("ethereum")] [("usd")]).cache [("ethereum"), ("solana")] [("usd")] =
      ⟨Except.ok [(("ethereum"), [(("usd"), 3000)])],
       (get_prices (Except.ok [(("ethereum"), [(("usd"), 3000)])]) 0 []
          [("solana"), ("ethereum")] [("usd")]).cache, false⟩ :=
  ⟨by decide,
   C3_sorted_key_sharing.2 [(("ethereum"), [(("usd"), 3000)])] (Except.error ()) 0 30 []
     [("solana"), ("ethereum")] [("usd")] [("ethereum"), ("solana")] [("usd")]
     (List.Perm.swap ("ethereum") ("solana") []) (List.Perm.refl _) (by decide) (by decide)⟩

/-- C6: the resolver picks among symbol matches, falling back to name
matches only when no symbol matches; when candidates exist it returns the
id of a candidate that is minimal for (name length, then id), and when
none exist it returns `none`. -/
theorem C6_candidate_selection (coins : List Coin) (key : String) :
    (matchCandidates coins key = [] → chooseMatch coins key = none) ∧
    (matchCandidates coins key ≠ [] →
      ∃ c, c ∈ matchCandidates coins key ∧ chooseMatch coins key = some c.id ∧
        ∀ d ∈ matchCandidates coins key,
          c.name.length < d.name.length ∨
            (c.name.length = d.name.length ∧ c.id ≤ d.id)) := by
  constructor
  · intro h
    unfold chooseMatch
    rw [h]
    rfl
  · intro h
    cases hs : pySorted coinLE (matchCandidates coins key) with
    | nil =>
      exfalso
      have hp := pySorted_perm coinLE (matchCandidates coins key)
      rw [hs] at hp
      exact h (hp.symm.eq_nil)
    | cons c rest =>
      have hleast := pySorted_head_least coinLE coinLE_trans coinLE_total
        (matchCandidates coins key) c rest hs
      refine ⟨c, hleast.1, ?_, ?_⟩
      · unfold chooseMatch
        rw [hs]
      · intro d hd
        have hle := hleast.2 d hd
        simp only [coinLE, Bool.or_eq_true, Bool.and_eq_true, decide_eq_true_eq,
          strLE_iff_le] at hle
        exact hle

/-- C6 witness: among two coins both with symbol "ab", the one with the
shorter name wins; "Beta" (4 letters) beats "Gamma" (5). -/
theorem C6_witness :
    matchCandidates [⟨("idg"), ("ab"), ("Gamma")⟩, ⟨("idb"), ("ab"), ("Beta")⟩] ("ab") ≠ [] ∧
    ∃ c, c ∈ matchCandidates [⟨("idg"), ("ab"), ("Gamma")⟩, ⟨("idb"), ("ab"), ("Beta")⟩] ("ab") ∧
      chooseMatch [⟨("idg"), ("ab"), ("Gamma")⟩, ⟨("idb"), ("ab"), ("Beta")⟩] ("ab") = some c.id ∧
      ∀ d ∈ matchCandidates [⟨("idg"), ("ab"), ("Gamma")⟩, ⟨("idb"), ("ab"), ("Beta")⟩] ("ab"),
        c.name.length < d.name.length ∨
          (c.name.length = d.name.length ∧ c.id ≤ d.id) :=
  ⟨by decide,
   (C6_candidate_selection [⟨("idg"), ("ab"), ("Gamma")⟩, ⟨("idb"), ("ab"), ("Beta")⟩] ("ab")).2
     (by decide)⟩

/-- Price fetcher used in the C1 counterexample: base USD price present
but zero, quote USD price 150. -/
def zeroBasePriceFetch : List String → List String → Except Unit PriceData := fun ids vs =>
  if ids == [("ethereum"), ("solana")] && vs == [("usd")] then
    Except.ok [(("ethereum"), [(("usd"), 0)]), (("solana"), [(("usd"), 150)])]
  else Except.error ()

/-- C1 counterexample: the fetched mapping carries a USD price for both
ids and the quote USD price is nonzero, yet the conversion does not
succeed: the guard `not p_base` also rejects a present-but-zero base
price, so the handler replies "price unavailable". -/
theorem C1_counterexample :
    priceLookup [(("ethereum"), [(("usd"), 0)]), (("solana"), [(("usd"), 150)])]
        ("ethereum") ("usd") = some 0 ∧
    priceLookup [(("ethereum"), [(("usd"), 0)]), (("solana"), [(("usd"), 150)])]
        ("solana") ("usd") = some 150 ∧
    (150 : ℚ) ≠ 0 ∧
    (handle_message (Except.error ()) zeroBasePriceFetch 0 ⟨[], []⟩ 10 ("eth") ("sol")).1 =
      Except.ok Reply.priceUnavailable :=
  ⟨by decide, by decide, by decide, by decide⟩

/-- C1 (amended): in the cross-asset branch, whenever the price fetch
returns a nonzero USD price for the base id and a nonzero USD price for
the quote id, the conversion succeeds with `rate = basePriceUsd /
quotePriceUsd` and `convertedAmount = amount * rate`. -/
theorem C1_cross_rate (coinsFetch : Except Unit (List Coin))
    (priceFetch : List String → List String → Except Unit PriceData)
    (now : Nat) (st : BotState) (amt : ℚ) (baseRaw quoteRaw : String)
    (bid qid : String) (prices : PriceData) (pb pq : ℚ)
    (hfiat : FIAT_WHITELIST.contains (nrm quoteRaw) = false)
    (hb : (symbol_to_id coinsFetch now st.symCache (nrm baseRaw)).result = Except.ok (some bid))
    (hbne : bid ≠ (""))
    (hq : (symbol_to_id coinsFetch now
        (symbol_to_id coinsFetch now st.symCache (nrm baseRaw)).cache (nrm quoteRaw)).result =
      Except.ok (some qid))
    (hqne : qid ≠ (""))
    (hfetch : (get_prices (priceFetch [bid, qid] [("usd")]) now st.priceCache
        [bid, qid] [("usd")]).result = Except.ok prices)
    (hpb : priceLookup prices bid ("usd") = some pb) (hpb0 : pb ≠ 0)
    (hpq : priceLookup prices qid ("usd") = some pq) (hpq0 : pq ≠ 0) :
    (handle_message coinsFetch priceFetch now st amt baseRaw quoteRaw).1 =
      Except.ok (Reply.success (amt * (pb / pq)) (pb / pq)) := by
  simp only [handle_message, hfiat, hb, hq, hfetch, hpb, hpq, Bool.false_eq_true, if_false,
    pyStrFalsy, beq_iff_eq, hbne, hqne, if_false, cross_result, pyFalsy, Option.getD_some]
  simp [hbne, hqne, hpb0, hpq0]

/-- Price fetcher for the C1 witness: the eth/sol spec scenario. -/
def demoPriceFetch : List String → List String → Except Unit PriceData := fun ids vs =>
  if ids == [("ethereum"), ("solana")] && vs == [("usd")] then
    Except.ok [(("ethereum"), [(("usd"), 3000)]), (("solana"), [(("usd"), 150)])]
  else Except.error ()

/-- C1 witness: amount 10, eth at 3000 USD, sol at 150 USD gives rate 20
and converted amount 200. -/
theorem C1_witness :
    (handle_message (Except.error ()) demoPriceFetch 0 ⟨[], []⟩ 10 ("eth") ("sol")).1 =
      Except.ok (Reply.success 200 20) := by
  have h := C1_cross_rate (Except.error ()) demoPriceFetch 0 ⟨[], []⟩ 10 ("eth") ("sol")
    ("ethereum") ("solana")
    [(("ethereum"), [(("usd"), 3000)]), (("solana"), [(("usd"), 150)])] 3000 150
    (by decide) (by decide) (by decide) (by decide) (by decide) (by decide)
    (by decide) (by decide) (by decide) (by decide)
  rw [h]
  have e1 : (10 : ℚ) * (3000 / 150) = 200 := by norm_num
  have e2 : (3000 : ℚ) / 150 = 20 := by norm_num
  rw [e1, e2]

/-- C2: in the cross-asset branch a fetched quote USD price of exactly 0
makes the handler reply "price unavailable"; and every successful
cross-asset conversion has its rate of the form `p_base / p_quote` with a
nonzero divisor, so the division is never executed with divisor 0. -/
theorem C2_zero_quote_guard :
    (∀ (coinsFetch : Except Unit (List Coin))
        (priceFetch : List String → List String → Except Unit PriceData)
        (now : Nat) (st : BotState) (amt : ℚ) (baseRaw quoteRaw : String)
        (bid qid : String) (prices : PriceData),
      FIAT_WHITELIST.contains (nrm quoteRaw) = false →
      (symbol_to_id coinsFetch now st.symCache (nrm baseRaw)).result = Except.ok (some bid) →
      bid ≠ ("") →
      (symbol_to_id coinsFetch now
          (symbol_to_id coinsFetch now st.symCache (nrm baseRaw)).cache (nrm quoteRaw)).result =
        Except.ok (some qid) →
      qid ≠ ("") →
      (get_prices (priceFetch [bid, qid] [("usd")]) now st.priceCache
          [bid, qid] [("usd")]).result = Except.ok prices →
      priceLookup prices qid ("usd") = some 0 →
      (handle_message coinsFetch priceFetch now st amt baseRaw quoteRaw).1 =
        Except.ok Reply.priceUnavailable) ∧
    (∀ (amt : ℚ) (p_base p_quote : Option ℚ) (t r : ℚ),
      cross_result amt p_base p_quote = Reply.success t r →
      ∃ pb pq, p_base = some pb ∧ p_quote = some pq ∧ pq ≠ 0 ∧ r = pb / pq) := by
  constructor
  · intro coinsFetch priceFetch now st amt baseRaw quoteRaw bid qid prices
      hfiat hb hbne hq hqne hfetch hzero
    have hnf : nrm quoteRaw ∉ FIAT_WHITELIST := by simpa using hfiat
    simp [handle_message, hnf, hb, hq, hfetch, hzero, pyStrFalsy, beq_iff_eq,
      hbne, hqne, cross_result, pyFalsy]
  · intro amt pb? pq? t r h
    cases pb? with
    | none => simp [cross_result, pyFalsy] at h
    | some pb =>
      cases pq? with
      | none => simp [cross_result, pyFalsy] at h
      | some pq =>
        by_cases hpb : pb = 0
        · rw [hpb] at h
          simp [cross_result, pyFalsy] at h
        · by_cases hpq : pq = 0
          · rw [hpq] at h
            simp [cross_result, pyFalsy] at h
          · refine ⟨pb, pq, rfl, rfl, hpq, ?_⟩
            simp [cross_result, pyFalsy, hpb, hpq] at h
            exact h.2.symm

/-- Price fetcher for the C2 witness: quote USD price exactly 0. -/
def zeroQuotePriceFetch : List String → List String → Except Unit PriceData := fun ids vs =>
  if ids == [("ethereum"), ("solana")] && vs == [("usd")] then
    Except.ok [(("ethereum"), [(("usd"), 3000)]), (("solana"), [(("usd"), 0)])]
  else Except.error ()

/-- C2 witness: sol quoted at 0 USD makes the eth to sol conversion reply
"price unavailable". -/
theorem C2_witness :
    priceLookup [(("ethereum"), [(("usd"), 3000)]), (("solana"), [(("usd"), 0)])]
        ("solana") ("usd") = some 0 ∧
    (handle_message (Except.error ()) zeroQuotePriceFetch 0 ⟨[], []⟩ 10 ("eth") ("sol")).1 =
      Except.ok Reply.priceUnavailable :=
  ⟨by decide,
   C2_zero_quote_guard.1 (Except.error ()) zeroQuotePriceFetch 0 ⟨[], []⟩ 10 ("eth") ("sol")
     ("ethereum") ("solana")
     [(("ethereum"), [(("usd"), 3000)]), (("solana"), [(("usd"), 0)])]
     (by decide) (by decide) (by decide) (by decide) (by decide) (by decide) (by decide)⟩

/-- C10: in the fiat branch a present price of exactly 0 is not treated
as unavailable: the conversion succeeds with converted amount 0 and rate
0; in the cross-asset branch a present zero USD price for either asset
makes the handler reply "price unavailable" instead. -/
theorem C10_fiat_zero_price :
    (∀ (coinsFetch : Except Unit (List Coin))
        (priceFetch : List String → List String → Except Unit PriceData)
        (now : Nat) (st : BotState) (amt : ℚ) (baseRaw quoteRaw : String)
        (bid : String) (prices : PriceData),
      FIAT_WHITELIST.contains (nrm quoteRaw) = true →
      (symbol_to_id coinsFetch now st.symCache (nrm baseRaw)).result = Except.ok (some bid) →
      bid ≠ ("") →
      (get_prices (priceFetch [bid] [nrm quoteRaw]) now st.priceCache
          [bid] [nrm quoteRaw]).result = Except.ok prices →
      priceLookup prices bid (nrm quoteRaw) = some 0 →
      (handle_message coinsFetch priceFetch now st amt baseRaw quoteRaw).1 =
        Except.ok (Reply.success 0 0)) ∧
    (∀ (amt : ℚ) (p_base p_quote : Option ℚ),
      p_base = some 0 ∨ p_quote = some 0 →
      cross_result amt p_base p_quote = Reply.priceUnavailable) := by
  constructor
  · intro coinsFetch priceFetch now st amt baseRaw quoteRaw bid prices
      hfiat hb hbne hfetch hzero
    have hyf : nrm quoteRaw ∈ FIAT_WHITELIST := by simpa using hfiat
    simp [handle_message, hyf, hb, hfetch, hzero, pyStrFalsy, beq_iff_eq,
      hbne, fiat_result, mul_zero]
  · intro amt pb? pq? h
    rcases h with h | h <;> rw [h] <;> simp [cross_result, pyFalsy]

/-- Price fetcher for the C10 witness: bitcoin quoted at 0 USD. -/
def fiatZeroPriceFetch : List String → List String → Except Unit PriceData := fun ids vs =>
  if ids == [("bitcoin")] && vs == [("usd")] then
    Except.ok [(("bitcoin"), [(("usd"), 0)])]
  else Except.error ()

/-- C10 witness: a present zero USD price in the fiat branch converts to
total 0 and rate 0 instead of "price unavailable". -/
theorem C10_witness :
    priceLookup [(("bitcoin"), [(("usd"), 0)])] ("bitcoin") (nrm ("usd")) = some 0 ∧
    (handle_message (Except.error ()) fiatZeroPriceFetch 0 ⟨[], []⟩ 2 ("btc") ("usd")).1 =
      Except.ok (Reply.success 0 0) :=
  ⟨by decide,
   C10_fiat_zero_price.1 (Except.error ()) fiatZeroPriceFetch 0 ⟨[], []⟩ 2 ("btc") ("usd")
     ("bitcoin") [(("bitcoin"), [(("usd"), 0)])]
     (by decide) (by decide) (by decide) (by decide) (by decide)⟩

/-- Number of characters after the last decimal point of a rendering. -/
def fracCount (s : String) : Nat :=
  (s.data.reverse.takeWhile (fun c => c != '.')).length

/-- `digitChar` never yields the decimal point. -/
theorem digitChar_ne_dot (d : Nat) : digitChar d ≠ '.' := by
  unfold digitChar
  split <;> decide

/-- The fractional rendering always has exactly `n` characters. -/
theorem fracDigitsList_length (n fp : Nat) : (fracDigitsList n fp).length = n := by
  induction n generalizing fp with
  | zero => rfl
  | succ k ih => simp [fracDigitsList, ih]

/-- The fractional rendering contains no decimal point. -/
theorem fracDigitsList_ne_dot (n fp : Nat) : ∀ c ∈ fracDigitsList n fp, c ≠ '.' := by
  induction n generalizing fp with
  | zero =>
    intro c hc
    simp [fracDigitsList] at hc
  | succ k ih =>
    intro c hc
    simp only [fracDigitsList, List.mem_append, List.mem_singleton] at hc
    rcases hc with hc | hc
    · exact ih (fp / 10) c hc
    · rw [hc]
      exact digitChar_ne_dot _

/-- The integer-part rendering contains no decimal point. -/
theorem natDigitsCore_ne_dot (fuel : Nat) : ∀ (n : Nat) (acc : List Char),
    (∀ c ∈ acc, c ≠ '.') → ∀ c ∈ natDigitsCore fuel n acc, c ≠ '.' := by
  induction fuel with
  | zero => exact fun n acc hacc => hacc
  | succ f ih =>
    intro n acc hacc
    simp only [natDigitsCore]
    split
    · intro c hc
      rcases List.mem_cons.mp hc with h | h
      · rw [h]
        exact digitChar_ne_dot _
      · exact hacc c h
    · refine ih (n / 10) _ ?_
      intro c hc
      rcases List.mem_cons.mp hc with h | h
      · rw [h]
        exact digitChar_ne_dot _
      · exact hacc c h

/-- `natDigits` contains no decimal point. -/
theorem natDigits_ne_dot (n : Nat) : ∀ c ∈ natDigits n, c ≠ '.' :=
  natDigitsCore_ne_dot (n + 1) n [] (by intro c hc; cases hc)

/-- Every character of `group3 l` is a character of `l` or a comma. -/
theorem mem_group3 : ∀ (l : List Char), ∀ c ∈ group3 l, c ∈ l ∨ c = ',' := by
  intro l
  induction l using group3.induct with
  | case1 a b c3 rest hrest =>
    intro c hc
    simp only [group3, if_pos hrest, List.mem_cons, List.not_mem_nil, or_false] at hc
    rcases hc with h | h | h
    · exact Or.inl (by rw [h]; exact List.mem_cons_self _ _)
    · exact Or.inl (by rw [h]; simp)
    · exact Or.inl (by rw [h]; simp)
  | case2 a b c3 rest hrest ih =>
    intro c hc
    simp only [group3, if_neg hrest, List.mem_cons] at hc
    rcases hc with h | h | h | h | h
    · exact Or.inl (by rw [h]; exact List.mem_cons_self _ _)
    · exact Or.inl (by rw [h]; simp)
    · exact Or.inl (by rw [h]; simp)
    · exact Or.inr h
    · rcases ih c h with h2 | h2
      · exact Or.inl (List.mem_cons_of_mem a (List.mem_cons_of_mem b (List.mem_cons_of_mem c3 h2)))
      · exact Or.inr h2
  | case3 l hl =>
    intro c hc
    rw [group3] at hc
    · exact Or.inl hc
    · exact hl

/-- The grouped integer-part rendering contains no decimal point. -/
theorem groupDigits_ne_dot (l : List Char) (h : ∀ c ∈ l, c ≠ '.') :
    ∀ c ∈ groupDigits l, c ≠ '.' := by
  intro c hc
  unfold groupDigits at hc
  rw [List.mem_reverse] at hc
  rcases mem_group3 _ c hc with h1 | h1
  · exact h c (List.mem_reverse.mp h1)
  · rw [h1]
    decide

/-- The raw character list of a `String.mk`. -/
theorem data_mk (l : List Char) : (String.mk l).data = l := rfl

/-- `takeWhile` over digits stops exactly at the decimal point. -/
theorem takeWhile_until_dot (l1 l2 : List Char) (h : ∀ c ∈ l1, c ≠ '.') :
    (l1 ++ '.' :: l2).takeWhile (fun c => c != '.') = l1 := by
  induction l1 with
  | nil =>
    rw [List.nil_append, List.takeWhile_cons, if_neg (by decide)]
  | cons a t ih =>
    have ha : (a != '.') = true := by
      simp [h a (List.mem_cons_self a t)]
    rw [List.cons_append, List.takeWhile_cons, if_pos ha,
      ih (fun c hc => h c (List.mem_cons_of_mem a hc))]

/-- `fracCount` reads the length of the fractional block of a rendering
of the shape `ip ++ "." ++ fr` where `fr` has no decimal point. -/
theorem fracCount_of_shape (s : String) (ip fr : List Char)
    (hdata : s.data = ip ++ '.' :: fr) (hfr : ∀ c ∈ fr, c ≠ '.') :
    fracCount s = fr.length := by
  unfold fracCount
  rw [hdata, List.reverse_append, List.reverse_cons, List.append_assoc,
    List.singleton_append,
    takeWhile_until_dot _ _ (fun c hc => hfr c (List.mem_reverse.mp hc)),
    List.length_reverse]

/-- The rendering of a scaled value splits as integer part, point,
`n`-character fraction, with no point on either side. -/
theorem renderFixed_shape (g : Bool) (n s : Nat) :
    ∃ ip fr, (renderFixed g n s).data = ip ++ '.' :: fr ∧
      (∀ c ∈ ip, c ≠ '.') ∧ (∀ c ∈ fr, c ≠ '.') ∧ fr.length = n := by
  refine ⟨(if g then groupDigits (natDigits (s / 10 ^ n)) else natDigits (s / 10 ^ n)),
    fracDigitsList n (s % 10 ^ n), rfl, ?_, fracDigitsList_ne_dot n _, fracDigitsList_length n _⟩
  by_cases hg : g = true
  · rw [if_pos hg]
    exact groupDigits_ne_dot _ (natDigits_ne_dot _)
  · rw [if_neg hg]
    exact natDigits_ne_dot _

/-- The full fixed-point rendering splits the same way (a sign character
may precede the integer part). -/
theorem fmtFixed_shape (g : Bool) (n : Nat) (x : ℚ) :
    ∃ ip fr, (fmtFixed g n x).data = ip ++ '.' :: fr ∧
      (∀ c ∈ ip, c ≠ '.') ∧ (∀ c ∈ fr, c ≠ '.') ∧ fr.length = n := by
  obtain ⟨ip, fr, hd, hip, hfr, hlen⟩ :=
    renderFixed_shape g n (roundHalfEven (|x| * (10 : ℚ) ^ n)).toNat
  simp only [fmtFixed]
  by_cases hx : x < 0
  · rw [if_pos hx]
    refine ⟨'-' :: ip, fr, ?_, ?_, hfr, hlen⟩
    · rw [String.data_append, hd, List.cons_append]
      rfl
    · intro c hc
      rcases List.mem_cons.mp hc with h | h
      · rw [h]
        decide
      · exact hip c h
  · rw [if_neg hx]
    exact ⟨ip, fr, hd, hip, hfr, hlen⟩

/-- Every fixed-point rendering with `n` decimals shows exactly `n`
characters after its decimal point. -/
theorem fracCount_fmtFixed (g : Bool) (n : Nat) (x : ℚ) :
    fracCount (fmtFixed g n x) = n := by
  obtain ⟨ip, fr, hd, _, hfr, hlen⟩ := fmtFixed_shape g n x
  rw [fracCount_of_shape _ ip fr hd hfr, hlen]

/-- If `dropWhile` consumes all of `l1`, it continues into `l2`. -/
theorem dropWhile_eq_nil_append (p : α → Bool) (l1 l2 : List α)
    (h : l1.dropWhile p = []) : (l1 ++ l2).dropWhile p = l2.dropWhile p := by
  induction l1 with
  | nil => rfl
  | cons a t ih =>
    rw [List.cons_append, List.dropWhile_cons]
    rw [List.dropWhile_cons] at h
    by_cases hp : p a = true
    · rw [if_pos hp]
      rw [if_pos hp] at h
      exact ih h
    · rw [if_neg hp] at h
      exact absurd h (List.cons_ne_nil a t)

/-- If `dropWhile` stops inside `l1`, appending `l2` only appends. -/
theorem dropWhile_append_ne_nil (p : α → Bool) (l1 l2 : List α)
    (h : l1.dropWhile p ≠ []) : (l1 ++ l2).dropWhile p = l1.dropWhile p ++ l2 := by
  induction l1 with
  | nil => exact absurd rfl h
  | cons a t ih =>
    rw [List.cons_append, List.dropWhile_cons]
    by_cases hp : p a = true
    · rw [if_pos hp]
      rw [List.dropWhile_cons, if_pos hp] at h ⊢
      exact ih h
    · rw [if_neg hp]
      rw [List.dropWhile_cons, if_neg hp]
      rw [List.cons_append]

/-- `dropWhile (· == c)` drops nothing from a list free of `c`. -/
theorem dropWhile_of_ne (c : Char) (l : List Char) (h : ∀ a ∈ l, a ≠ c) :
    l.dropWhile (fun a => a == c) = l := by
  cases l with
  | nil => rfl
  | cons a t =>
    rw [List.dropWhile_cons, if_neg (by simp [h a (List.mem_cons_self a t)])]

/-- The first survivor of a `dropWhile` fails the predicate. -/
theorem dropWhile_head_not (p : α → Bool) (l : List α) (a : α) (rest : List α)
    (h : l.dropWhile p = a :: rest) : p a = false := by
  induction l with
  | nil => cases h
  | cons b t ih =>
    rw [List.dropWhile_cons] at h
    by_cases hp : p b = true
    · rw [if_pos hp] at h
      exact ih h
    · rw [if_neg hp] at h
      injection h with h1 _
      rw [← h1]
      exact Bool.eq_false_iff.mpr hp

/-- The raw character list after `.rstrip("0").rstrip(".")`. -/
theorem stripTrailing_data (s : String) :
    (stripTrailing s).data =
      ((s.data.reverse.dropWhile (fun a => a == '0')).dropWhile (fun a => a == '.')).reverse := by
  unfold stripTrailing rstripChar
  rw [data_mk, data_mk, List.reverse_reverse]

/-- Stripping a rendering of the shape `ip ++ "." ++ fr` (no point on
either side) leaves no trailing point, and leaves a trailing zero only
when the whole fractional block (point included) was removed. -/
theorem stripTrailing_shape (s : String) (ip fr : List Char)
    (hdata : s.data = ip ++ '.' :: fr)
    (hip : ∀ c ∈ ip, c ≠ '.') (hfr : ∀ c ∈ fr, c ≠ '.') :
    (stripTrailing s).data.getLast? ≠ some '.' ∧
    ('.' ∈ (stripTrailing s).data → (stripTrailing s).data.getLast? ≠ some '0') := by
  have hrev : s.data.reverse = fr.reverse ++ '.' :: ip.reverse := by
    rw [hdata, List.reverse_append, List.reverse_cons, List.append_assoc,
      List.singleton_append]
  rw [stripTrailing_data, hrev]
  cases hd : fr.reverse.dropWhile (fun a => a == '0') with
  | nil =>
    rw [dropWhile_eq_nil_append _ _ _ hd, List.dropWhile_cons, if_neg (by decide),
      List.dropWhile_cons, if_pos (by decide),
      dropWhile_of_ne '.' ip.reverse (fun a ha => hip a (List.mem_reverse.mp ha)),
      List.getLast?_reverse]
    constructor
    · cases hq : ip.reverse with
      | nil => simp
      | cons a t =>
        have ha : a ∈ ip := List.mem_reverse.mp (by rw [hq]; exact List.mem_cons_self a t)
        simp [hip a ha]
    · intro hmem
      rw [List.reverse_reverse] at hmem
      exact absurd rfl (hip '.' hmem)
  | cons h0 d2 =>
    have hne : fr.reverse.dropWhile (fun a => a == '0') ≠ [] := by
      rw [hd]
      exact List.cons_ne_nil h0 d2
    have hh0fr : h0 ∈ fr := by
      have hsub := (@List.dropWhile_sublist Char fr.reverse (fun a => a == '0')).subset
      rw [hd] at hsub
      exact List.mem_reverse.mp (hsub (List.mem_cons_self h0 d2))
    have hh0dot : h0 ≠ '.' := hfr h0 hh0fr
    have hh0zero : (h0 == '0') = false :=
      dropWhile_head_not (fun a => a == '0') fr.reverse h0 d2 hd
    rw [dropWhile_append_ne_nil _ _ _ hne, hd, List.cons_append, List.dropWhile_cons,
      if_neg (by simp [hh0dot]), List.getLast?_reverse]
    constructor
    · simp [hh0dot]
    · intro _
      have : h0 ≠ '0' := by simpa using hh0zero
      simp [this]

/-- C8: with a fiat quote, a value at least 1 renders as the grouped
2-decimal form (always exactly 2 characters after the point), a value in
[0.01, 1) as the 4-decimal form, and a value below 0.01 as the ungrouped
8-decimal form; concretely 1 renders as "1.00", 0.999999 rounds into the
4-decimal form "1.0000", 0.00000001 renders as "0.00000001", and
1234567 is thousands-grouped as "1,234,567.00". -/
theorem C8_fiat_boundaries :
    (∀ (x : ℚ) (quote : String), FIAT_WHITELIST.contains (nrm quote) = true →
      (1 ≤ x → fmt x quote = fmtFixed true 2 x ∧ fracCount (fmt x quote) = 2) ∧
      (1/100 ≤ x → x < 1 → fmt x quote = fmtFixed true 4 x ∧ fracCount (fmt x quote) = 4) ∧
      (x < 1/100 → fmt x quote = fmtFixed false 8 x ∧ fracCount (fmt x quote) = 8)) ∧
    fmt 1 ("usd") = ("1.00") ∧
    fmt (999999/1000000) ("usd") = ("1.0000") ∧
    fmt (1/100000000) ("usd") = ("0.00000001") ∧
    fmt (1234567 : ℚ) ("usd") = ("1,234,567.00") := by
  refine ⟨?_, ?_, ?_, ?_, ?_⟩
  · intro x quote hq
    refine ⟨?_, ?_, ?_⟩
    · intro h1
      have he : fmt x quote = fmtFixed true 2 x := by
        simp only [fmt]
        rw [if_pos hq, if_pos h1]
      exact ⟨he, by rw [he]; exact fracCount_fmtFixed true 2 x⟩
    · intro h01 h1
      have he : fmt x quote = fmtFixed true 4 x := by
        simp only [fmt]
        rw [if_pos hq, if_neg (not_le.mpr h1), if_pos h01]
      exact ⟨he, by rw [he]; exact fracCount_fmtFixed true 4 x⟩
    · intro h001
      have hlt1 : x < 1 := lt_trans h001 (by norm_num)
      have he : fmt x quote = fmtFixed false 8 x := by
        simp only [fmt]
        rw [if_pos hq, if_neg (not_le.mpr hlt1), if_neg (not_le.mpr h001)]
      exact ⟨he, by rw [he]; exact fracCount_fmtFixed false 8 x⟩
  · have hb : fmt (1 : ℚ) ("usd") = fmtFixed true 2 1 := by
      simp only [fmt]
      rw [if_pos (by decide), if_pos (by norm_num)]
    have hr : roundHalfEven (|(1 : ℚ)| * (10 : ℚ) ^ (2 : Nat)) = 100 := by
      simp only [roundHalfEven]
      norm_num
    rw [hb]
    simp only [fmtFixed]
    rw [if_neg (by norm_num), hr]
    decide
  · have hb : fmt ((999999 : ℚ)/1000000) ("usd") = fmtFixed true 4 (999999/1000000) := by
      simp only [fmt]
      rw [if_pos (by decide), if_neg (by norm_num), if_pos (by norm_num)]
    have hval : |((999999 : ℚ)/1000000)| * (10 : ℚ) ^ (4 : Nat) = 999999/100 := by
      rw [abs_of_pos (by norm_num : (0 : ℚ) < 999999/1000000)]
      norm_num
    have hfloor : ⌊(999999 : ℚ)/100⌋ = 9999 := by norm_num
    have hr : roundHalfEven (|((999999 : ℚ)/1000000)| * (10 : ℚ) ^ (4 : Nat)) = 10000 := by
      simp only [roundHalfEven]
      rw [hval, hfloor]
      norm_num
    rw [hb]
    simp only [fmtFixed]
    rw [if_neg (by norm_num), hr]
    decide
  · have hb : fmt ((1 : ℚ)/100000000) ("usd") = fmtFixed false 8 (1/100000000) := by
      simp only [fmt]
      rw [if_pos (by decide), if_neg (by norm_num), if_neg (by norm_num)]
    have hval : |((1 : ℚ)/100000000)| * (10 : ℚ) ^ (8 : Nat) = 1 := by
      rw [abs_of_pos (by norm_num : (0 : ℚ) < 1/100000000)]
      norm_num
    have hfloor : ⌊(1 : ℚ)⌋ = 1 := by norm_num
    have hr : roundHalfEven (|((1 : ℚ)/100000000)| * (10 : ℚ) ^ (8 : Nat)) = 1 := by
      simp only [roundHalfEven]
      rw [hval, hfloor]
      norm_num
    rw [hb]
    simp only [fmtFixed]
    rw [if_neg (by norm_num), hr]
    decide
  · have hb : fmt (1234567 : ℚ) ("usd") = fmtFixed true 2 1234567 := by
      simp only [fmt]
      rw [if_pos (by decide), if_pos (by norm_num)]
    have hr : roundHalfEven (|(1234567 : ℚ)| * (10 : ℚ) ^ (2 : Nat)) = 123456700 := by
      simp only [roundHalfEven]
      norm_num
    rw [hb]
    simp only [fmtFixed]
    rw [if_neg (by norm_num), hr]
    decide

/-- C8 witness: 5 euros take the grouped 2-decimal branch and show
exactly two characters after the point. -/
theorem C8_witness :
    FIAT_WHITELIST.contains (nrm ("eur")) = true ∧ (1 : ℚ) ≤ 5 ∧
    (fmt (5 : ℚ) ("eur") = fmtFixed true 2 5 ∧ fracCount (fmt (5 : ℚ) ("eur")) = 2) :=
  ⟨by decide, by norm_num,
   (C8_fiat_boundaries.1 5 ("eur") (by decide)).1 (by norm_num)⟩

/-- C9: with a non-fiat quote, a value at least 1 renders as the
6-decimal form and a smaller value as the 10-decimal form, each with
trailing zeros and any resulting trailing point stripped: the result
never ends in a point and, as long as a point survives, never ends in a
zero; concretely 1.5 renders as "1.5" and 0.1 as "0.1". -/
theorem C9_crypto_trim :
    (∀ (x : ℚ) (quote : String), FIAT_WHITELIST.contains (nrm quote) = false →
      (1 ≤ x → fmt x quote = stripTrailing (fmtFixed false 6 x)) ∧
      (x < 1 → fmt x quote = stripTrailing (fmtFixed false 10 x)) ∧
      (fmt x quote).data.getLast? ≠ some '.' ∧
      ('.' ∈ (fmt x quote).data → (fmt x quote).data.getLast? ≠ some '0')) ∧
    fmt ((3 : ℚ)/2) ("sol") = ("1.5") ∧
    fmt ((1 : ℚ)/10) ("sol") = ("0.1") := by
  refine ⟨?_, ?_, ?_⟩
  · intro x quote hq
    have he6 : 1 ≤ x → fmt x quote = stripTrailing (fmtFixed false 6 x) := by
      intro h1
      simp only [fmt]
      rw [if_neg (by simpa using hq), if_pos h1]
    have he10 : x < 1 → fmt x quote = stripTrailing (fmtFixed false 10 x) := by
      intro h1
      simp only [fmt]
      rw [if_neg (by simpa using hq), if_neg (not_le.mpr h1)]
    refine ⟨he6, he10, ?_⟩
    by_cases h1 : 1 ≤ x
    · rw [he6 h1]
      obtain ⟨ip, fr, hd, hip, hfr, _⟩ := fmtFixed_shape false 6 x
      exact stripTrailing_shape _ ip fr hd hip hfr
    · rw [he10 (not_le.mp h1)]
      obtain ⟨ip, fr, hd, hip, hfr, _⟩ := fmtFixed_shape false 10 x
      exact stripTrailing_shape _ ip fr hd hip hfr
  · have hb : fmt ((3 : ℚ)/2) ("sol") = stripTrailing (fmtFixed false 6 (3/2)) := by
      simp only [fmt]
      rw [if_neg (by decide), if_pos (by norm_num)]
    have hval : |((3 : ℚ)/2)| * (10 : ℚ) ^ (6 : Nat) = 1500000 := by
      rw [abs_of_pos (by norm_num : (0 : ℚ) < 3/2)]
      norm_num
    have hfloor : ⌊(1500000 : ℚ)⌋ = 1500000 := by norm_num
    have hr : roundHalfEven (|((3 : ℚ)/2)| * (10 : ℚ) ^ (6 : Nat)) = 1500000 := by
      simp only [roundHalfEven]
      rw [hval, hfloor]
      norm_num
    rw [hb]
    simp only [fmtFixed]
    rw [if_neg (by norm_num), hr]
    decide
  · have hb : fmt ((1 : ℚ)/10) ("sol") = stripTrailing (fmtFixed false 10 (1/10)) := by
      simp only [fmt]
      rw [if_neg (by decide), if_neg (by norm_num)]
    have hval : |((1 : ℚ)/10)| * (10 : ℚ) ^ (10 : Nat) = 1000000000 := by
      rw [abs_of_pos (by norm_num : (0 : ℚ) < 1/10)]
      norm_num
    have hfloor : ⌊(1000000000 : ℚ)⌋ = 1000000000 := by norm_num
    have hr : roundHalfEven (|((1 : ℚ)/10)| * (10 : ℚ) ^ (10 : Nat)) = 1000000000 := by
      simp only [roundHalfEven]
      rw [hval, hfloor]
      norm_num
    rw [hb]
    simp only [fmtFixed]
    rw [if_neg (by norm_num), hr]
    decide

/-- C9 witness: 0.1 with a crypto quote takes the 10-decimal stripped
branch. -/
theorem C9_witness :
    FIAT_WHITELIST.contains (nrm ("sol")) = false ∧
    (1 : ℚ)/10 < 1 ∧
    fmt ((1 : ℚ)/10) ("sol") = stripTrailing (fmtFixed false 10 (1/10)) :=
  ⟨by decide, by norm_num,
   (C9_crypto_trim.1 ((1 : ℚ)/10) ("sol") (by decide)).2.1 (by norm_num)⟩
